import Mathlib

/-!
# Verification of the bopzone movie-ranking client

Shallow embedding of the binary-insertion comparison flow implemented in
`src/unnamed/part_006` (the movie-list page script):

* `getMoviesInCategory` (part_006 lines 174-178)
* `startBinaryComparison` (lines 181-199)
* `showNextComparison` (lines 201-212)
* `handleComparison` (lines 214-257)
* the `addMovie` branch that decides whether a session starts (lines 156-166)

Modelling notes, tied to the JavaScript source:

* A movie is modelled by the fields the ranking logic reads: `id`,
  `movie_title` and `elo_rating`.  Ratings are modelled as integers: the
  client only stores ratings received from the server and compares them,
  so any linearly ordered carrier is faithful; `Int` keeps everything
  decidable. Server-side fields (owner, category) do not appear because the
  category filtering happens server-side and the client receives the
  already-scoped list.
* `movies.sort((a, b) => b.elo_rating - a.elo_rating)` is ES2019
  `Array.prototype.sort`, which is specified to be stable; with this
  comparator it is exactly the stable descending sort by `elo_rating`,
  modelled by `List.insertionSort` with the relation `eloGe` (insertion
  sort is the canonical stable sort).
* `Math.floor((low + high) / 2)` is floored integer division, `Int.fdiv`.
* `current.compareTo` aliases `current.movies[current.mid]` in the
  JavaScript heap (both `startBinaryComparison` and `handleComparison`
  assign `compareTo = movies[mid]`), so the in-place write
  `current.compareTo.elo_rating = data.movie_b_rating` also updates the
  entry at index `mid` of `movies`; the model performs both updates.
* An out-of-range `movies[mid]` yields `undefined` in JavaScript; the model
  returns `undefinedMovie` from `List.getD`.  The safety claim shows the
  lookup is in range in every reachable state, so the default is never hit.
* The `/api/compare` round trip is modelled by three parameters of
  `handleComparison`: `apiOk` (did the fetch succeed with `response.ok`)
  and `ratingA`/`ratingB` (the server-computed Elo values
  `data.movie_a_rating` / `data.movie_b_rating`; the Elo arithmetic itself
  is server code outside this file's scope, so the values are universally
  quantified).  On failure the `catch` block only shows a message: the
  rating refresh is skipped but the code continues with the bounds update.
-/

namespace Bopzone

/-- The three comparison outcomes submitted by the modal buttons
(part_006 lines 126-128): `a` = new movie wins, `b` = opponent wins,
`equal` = tie. -/
inductive Choice where
  | a
  | b
  | equal
deriving DecidableEq

/-- The fields of a movie record that the ranking logic reads. -/
structure Movie where
  id : Nat
  movie_title : String
  elo_rating : Int
deriving DecidableEq

/-- Model of the JavaScript `undefined` produced by an out-of-range
array access; proved unreachable on the session states the code visits. -/
def undefinedMovie : Movie :=
  { id := 0, movie_title := "", elo_rating := 0 }

/-- The ordering relation induced by the comparator
`(a, b) => b.elo_rating - a.elo_rating`: `a` may be placed (weakly)
before `b` iff `b.elo_rating ≤ a.elo_rating`. -/
def eloGe (a b : Movie) : Prop :=
  b.elo_rating ≤ a.elo_rating

instance : DecidableRel eloGe := fun a b =>
  inferInstanceAs (Decidable (b.elo_rating ≤ a.elo_rating))

instance : IsTotal Movie eloGe := ⟨fun a b => le_total b.elo_rating a.elo_rating⟩

instance : IsTrans Movie eloGe := ⟨fun _ _ _ h1 h2 => le_trans h2 h1⟩

/-- `movies.sort((a, b) => b.elo_rating - a.elo_rating)` (part_006 line 183):
stable descending sort by `elo_rating`. -/
def sortByEloDesc (l : List Movie) : List Movie :=
  List.insertionSort eloGe l

/-- `Math.floor((low + high) / 2)` (part_006 lines 188 and 251). -/
def jsMid (low high : Int) : Int :=
  Int.fdiv (low + high) 2

/-- One entry of `comparisonQueue`: the session state built at line 190
and rebuilt at lines 249-253. -/
structure CompareState where
  movies : List Movie
  low : Int
  high : Int
  mid : Int
  compareTo : Movie
deriving DecidableEq

/-- The client-side mutable state relevant to a ranking session:
`newMovie` and `comparisonQueue`. -/
structure ClientState where
  newMovie : Movie
  comparisonQueue : List CompareState
deriving DecidableEq

/-- `getMoviesInCategory` (lines 174-178): the server's category listing
filtered by `m.id !== newMovie.id`. -/
def getMoviesInCategory (newId : Nat) (categoryResponse : List Movie) : List Movie :=
  categoryResponse.filter (fun m => m.id != newId)

/-- `startBinaryComparison` (lines 181-196): sort by rating descending,
set `low = 0`, `high = movies.length - 1`, `mid = floor((low+high)/2)`,
`compareTo = movies[mid]`. -/
def startBinaryComparison (movies0 : List Movie) : CompareState :=
  let movies := sortByEloDesc movies0
  let low : Int := 0
  let high : Int := (movies.length : Int) - 1
  let mid : Int := jsMid low high
  { movies := movies
    low := low
    high := high
    mid := mid
    compareTo := movies.getD mid.toNat undefinedMovie }

/-- The branch of `addMovie` (lines 156-166) that decides whether a
comparison session starts: a non-empty candidate list becomes the
singleton `comparisonQueue` built by `startBinaryComparison`; an empty
one issues no comparison at all. -/
def addMovieQueue (categoryMovies : List Movie) : List CompareState :=
  if categoryMovies.length > 0 then [startBinaryComparison categoryMovies] else []

/-- `showNextComparison` (lines 201-212): an empty queue finishes the
ranking (no pair displayed); otherwise the modal shows
`newMovie` versus `comparisonQueue[0].compareTo`. -/
def showNextComparison (nm : Movie) (queue : List CompareState) :
    Option (Movie × Movie) :=
  match queue with
  | [] => none
  | current :: _ => some (nm, current.compareTo)

/-- The `low` bound after the outcome branch of `handleComparison`
(lines 241-247): `'a'` sets `low = mid + 1`, `'b'` leaves it, and
`'equal'` sets `low = high + 1` to end the search. -/
def nextLow (choice : Choice) (s : CompareState) : Int :=
  match choice with
  | .a => s.mid + 1
  | .b => s.low
  | .equal => s.high + 1

/-- The `high` bound after the outcome branch of `handleComparison`
(lines 241-247): only `'b'` changes it, to `mid - 1`. -/
def nextHigh (choice : Choice) (s : CompareState) : Int :=
  match choice with
  | .a => s.high
  | .b => s.mid - 1
  | .equal => s.high

/-- The session's movie list after the rating refresh of
`handleComparison` (line 235): on a successful `/api/compare` call the
write `current.compareTo.elo_rating = data.movie_b_rating` updates the
object shared with `current.movies[current.mid]`; on failure the `catch`
block skips the refresh. -/
def refreshedMovies (apiOk : Bool) (ratingB : Int) (s : CompareState) : List Movie :=
  if apiOk then s.movies.set s.mid.toNat { s.compareTo with elo_rating := ratingB }
  else s.movies

/-- The state re-enqueued by `handleComparison` when `low <= high`
(lines 249-253): refreshed movies, updated bounds, recomputed `mid`,
and `compareTo = movies[mid]`. -/
def advancedState (choice : Choice) (apiOk : Bool) (ratingB : Int)
    (s : CompareState) : CompareState :=
  { movies := refreshedMovies apiOk ratingB s
    low := nextLow choice s
    high := nextHigh choice s
    mid := jsMid (nextLow choice s) (nextHigh choice s)
    compareTo := (refreshedMovies apiOk ratingB s).getD
      (jsMid (nextLow choice s) (nextHigh choice s)).toNat undefinedMovie }

/-- `handleComparison` (lines 214-257).  Shifts the head of
`comparisonQueue`; when the `/api/compare` call succeeds (`apiOk`),
refreshes `newMovie.elo_rating` and the opponent's rating (which aliases
`movies[mid]`, see `refreshedMovies`) from the response; on failure the
`catch` only shows a message and the code falls through.  Then the
outcome branch updates the bounds (`nextLow`/`nextHigh`), and if
`low <= high` the state is re-enqueued (`advancedState`).  Returns the
new client state together with what `showNextComparison` then displays
(`none` = session finished).  A call with an empty queue is modelled as
a no-op: the JavaScript throws a `TypeError` on `current.compareTo`
before mutating anything. -/
def handleComparison (choice : Choice) (apiOk : Bool) (ratingA ratingB : Int)
    (cs : ClientState) : ClientState × Option (Movie × Movie) :=
  match cs.comparisonQueue with
  | [] => (cs, none)
  | current :: rest =>
    let nm := if apiOk then { cs.newMovie with elo_rating := ratingA } else cs.newMovie
    let queue :=
      if nextLow choice current ≤ nextHigh choice current then
        advancedState choice apiOk ratingB current :: rest
      else rest
    ({ newMovie := nm, comparisonQueue := queue }, showNextComparison nm queue)

/-- One client round trip: the clicked outcome plus the modelled server
response (`apiOk`, and the two Elo values returned on success). -/
structure Round where
  choice : Choice
  apiOk : Bool
  ratingA : Int
  ratingB : Int
deriving DecidableEq

/-- Iterated `handleComparison` over a list of rounds. -/
def run (cs : ClientState) : List Round → ClientState
  | [] => cs
  | r :: rs => run (handleComparison r.choice r.apiOk r.ratingA r.ratingB cs).1 rs

/-- Number of comparisons the session resolves over a list of rounds:
a round counts exactly when a comparison is pending (non-empty queue,
i.e. the modal is showing a pair). -/
def countComparisons : ClientState → List Round → Nat
  | _, [] => 0
  | cs, r :: rs =>
    if cs.comparisonQueue.isEmpty then 0
    else 1 + countComparisons (handleComparison r.choice r.apiOk r.ratingA r.ratingB cs).1 rs

/-- Size of the still-unresolved search window of a session state. -/
def wsize (s : CompareState) : Nat :=
  (s.high - s.low + 1).toNat

/-- The properties every session state sitting in `comparisonQueue`
satisfies: non-negative in-progress bounds, `mid` as computed by the
code, `high` inside the candidate list, and `compareTo` aliasing
`movies[mid]`. -/
def StInv (s : CompareState) : Prop :=
  0 ≤ s.low ∧ s.low ≤ s.high ∧ s.mid = jsMid s.low s.high ∧
    s.high < (s.movies.length : Int) ∧
    s.compareTo = s.movies.getD s.mid.toNat undefinedMovie

/-- Invariant of the whole `comparisonQueue`: it holds at most one
session state, and that state satisfies `StInv`. -/
def QInv : List CompareState → Prop
  | [] => True
  | [s] => StInv s
  | _ :: _ :: _ => False

/-- Concrete fixture: three candidates with distinct ratings
(the concrete scenario of the specification, ratings 1500/1400/1300). -/
def sampleMovies : List Movie :=
  [{ id := 1, movie_title := "alpha", elo_rating := 1500 },
   { id := 2, movie_title := "beta", elo_rating := 1400 },
   { id := 3, movie_title := "gamma", elo_rating := 1300 }]

/-- Concrete fixture: the newly added movie (baseline rating 1000). -/
def sampleNew : Movie :=
  { id := 9, movie_title := "delta", elo_rating := 1000 }

/-- Concrete fixture: the session state right after initialization on
`sampleMovies` (`low = 0`, `high = 2`, `mid = 1`). -/
def sampleState : CompareState :=
  startBinaryComparison sampleMovies

/-! ## Helper lemmas -/

theorem jsMid_two_mul (l h : Int) :
    l + h - 1 ≤ 2 * jsMid l h ∧ 2 * jsMid l h ≤ l + h := by
  have h1 := Int.fmod_add_fdiv (l + h) 2
  have h2 := Int.fmod_nonneg' (l + h) (by norm_num : (0 : Int) < 2)
  have h3 := Int.fmod_lt_of_pos (l + h) (by norm_num : (0 : Int) < 2)
  unfold jsMid
  omega

theorem le_jsMid {l h : Int} (hle : l ≤ h) : l ≤ jsMid l h := by
  have := jsMid_two_mul l h
  omega

theorem jsMid_le {l h : Int} (hle : l ≤ h) : jsMid l h ≤ h := by
  have := jsMid_two_mul l h
  omega

theorem run_empty_queue (nm : Movie) (rs : List Round) :
    run ⟨nm, []⟩ rs = ⟨nm, []⟩ := by
  induction rs with
  | nil => rfl
  | cons r rs ih => simpa [run, handleComparison] using ih

theorem countComparisons_empty_queue (nm : Movie) (rs : List Round) :
    countComparisons ⟨nm, []⟩ rs = 0 := by
  cases rs <;> simp [countComparisons, List.isEmpty]

/-- The queue produced by one `handleComparison` call on a non-empty
queue: the head is popped, advanced and re-enqueued exactly when the
updated bounds still satisfy `low <= high`. -/
theorem handleComparison_queue (choice : Choice) (apiOk : Bool) (rA rB : Int)
    (nm : Movie) (s : CompareState) (rest : List CompareState) :
    (handleComparison choice apiOk rA rB ⟨nm, s :: rest⟩).1.comparisonQueue =
      (if nextLow choice s ≤ nextHigh choice s then [advancedState choice apiOk rB s]
       else []) ++ rest := by
  simp only [handleComparison]
  split <;> simp

/-- The new movie recorded after one `handleComparison` call on a
non-empty queue. -/
theorem handleComparison_newMovie (choice : Choice) (apiOk : Bool) (rA rB : Int)
    (nm : Movie) (s : CompareState) (rest : List CompareState) :
    (handleComparison choice apiOk rA rB ⟨nm, s :: rest⟩).1.newMovie =
      (if apiOk then { nm with elo_rating := rA } else nm) := by
  simp only [handleComparison]

/-- What the modal shows after one `handleComparison` call is
`showNextComparison` of the updated state. -/
theorem handleComparison_shown (choice : Choice) (apiOk : Bool) (rA rB : Int)
    (cs : ClientState) :
    (handleComparison choice apiOk rA rB cs).2 =
      showNextComparison (handleComparison choice apiOk rA rB cs).1.newMovie
        (handleComparison choice apiOk rA rB cs).1.comparisonQueue := by
  match cs with
  | ⟨nm, []⟩ => rfl
  | ⟨nm, s :: rest⟩ => simp only [handleComparison]

theorem sortByEloDesc_perm (l : List Movie) : List.Perm (sortByEloDesc l) l :=
  List.perm_insertionSort eloGe l

theorem sortByEloDesc_length (l : List Movie) :
    (sortByEloDesc l).length = l.length :=
  (sortByEloDesc_perm l).length_eq

theorem sortByEloDesc_sorted (l : List Movie) :
    List.Sorted eloGe (sortByEloDesc l) :=
  List.sorted_insertionSort eloGe l

/-- Elements passed over by `orderedInsert eloGe m` have a strictly
greater rating than `m`, so inserting `m` prepends it to the sublist of
elements sharing any given rating: this is stability of the sort. -/
theorem filter_orderedInsert_elo (m : Movie) (c : Int) (l : List Movie) :
    (l.orderedInsert eloGe m).filter (fun x => x.elo_rating == c) =
      if m.elo_rating == c then
        m :: l.filter (fun x => x.elo_rating == c)
      else l.filter (fun x => x.elo_rating == c) := by
  induction l with
  | nil =>
    simp only [List.orderedInsert]
    by_cases hm : m.elo_rating = c <;> simp [List.filter_cons, hm]
  | cons b bs ih =>
    by_cases hmb : eloGe m b
    · simp only [List.orderedInsert, if_pos hmb]
      by_cases hm : m.elo_rating = c <;> simp [List.filter_cons, hm]
    · have hgt : m.elo_rating < b.elo_rating := by
        simpa [eloGe, not_le] using hmb
      simp only [List.orderedInsert, if_neg hmb]
      by_cases hb : b.elo_rating = c
      · have hm : ¬ m.elo_rating = c := by omega
        simp [List.filter_cons, hb, hm, ih]
      · simp [List.filter_cons, hb, ih]

/-- Stability of `sortByEloDesc`: for each rating value, the items
carrying that rating appear in the same order as in the input. -/
theorem sortByEloDesc_stable (c : Int) (l : List Movie) :
    (sortByEloDesc l).filter (fun x => x.elo_rating == c) =
      l.filter (fun x => x.elo_rating == c) := by
  induction l with
  | nil => rfl
  | cons m ms ih =>
    simp only [sortByEloDesc, List.insertionSort] at *
    rw [filter_orderedInsert_elo, ih, List.filter_cons]

theorem StInv.low_le_mid {s : CompareState} (h : StInv s) : s.low ≤ s.mid := by
  obtain ⟨h0, hlh, hm, -, -⟩ := h
  rw [hm]
  exact le_jsMid hlh

theorem StInv.mid_le_high {s : CompareState} (h : StInv s) : s.mid ≤ s.high := by
  obtain ⟨h0, hlh, hm, -, -⟩ := h
  rw [hm]
  exact jsMid_le hlh

theorem stInv_start (movies0 : List Movie) (h : movies0 ≠ []) :
    StInv (startBinaryComparison movies0) := by
  have hlen : (sortByEloDesc movies0).length = movies0.length :=
    sortByEloDesc_length movies0
  have hpos : 0 < movies0.length := List.length_pos.mpr h
  refine ⟨le_refl 0, ?_, rfl, ?_, rfl⟩
  · show (0 : Int) ≤ (sortByEloDesc movies0).length - 1
    rw [hlen]
    omega
  · show ((sortByEloDesc movies0).length : Int) - 1 < (sortByEloDesc movies0).length
    omega

theorem stInv_advanced {choice : Choice} {apiOk : Bool} {rB : Int}
    {s : CompareState} (h : StInv s)
    (hle : nextLow choice s ≤ nextHigh choice s) :
    StInv (advancedState choice apiOk rB s) := by
  have hlm := h.low_le_mid
  have hmh := h.mid_le_high
  obtain ⟨h0, hlh, hm, hhi, hct⟩ := h
  have hlen : (refreshedMovies apiOk rB s).length = s.movies.length := by
    unfold refreshedMovies
    cases apiOk <;> simp
  refine ⟨?_, hle, rfl, ?_, rfl⟩
  · show (0 : Int) ≤ nextLow choice s
    cases choice <;> simp only [nextLow, nextHigh] at hle ⊢ <;> omega
  · show (nextHigh choice s : Int) < (refreshedMovies apiOk rB s).length
    rw [hlen]
    cases choice <;> simp only [nextLow, nextHigh] at hle ⊢ <;> omega

theorem wsize_advanced {choice : Choice} {apiOk : Bool} {rB : Int}
    {s : CompareState} (h : StInv s)
    (hle : nextLow choice s ≤ nextHigh choice s) :
    wsize (advancedState choice apiOk rB s) ≤ wsize s / 2 := by
  have hmid := jsMid_two_mul s.low s.high
  obtain ⟨h0, hlh, hm, hhi, hct⟩ := h
  have hmid' : s.low + s.high - 1 ≤ 2 * s.mid ∧ 2 * s.mid ≤ s.low + s.high := by
    rw [hm]; exact hmid
  unfold wsize advancedState
  cases choice <;> simp only [nextLow, nextHigh] at hle ⊢ <;> omega

theorem qInv_handle (choice : Choice) (apiOk : Bool) (rA rB : Int)
    (cs : ClientState) (h : QInv cs.comparisonQueue) :
    QInv (handleComparison choice apiOk rA rB cs).1.comparisonQueue := by
  match hq : cs.comparisonQueue with
  | [] =>
    have : (handleComparison choice apiOk rA rB cs).1.comparisonQueue = [] := by
      cases cs with
      | mk nm q => subst hq; rfl
    rw [this]
    trivial
  | [s] =>
    have hs : StInv s := by rw [hq] at h; exact h
    cases cs with
    | mk nm q =>
      cases hq
      rw [handleComparison_queue]
      split
      · exact stInv_advanced hs (by assumption)
      · trivial
  | s :: t :: rest =>
    rw [hq] at h
    exact absurd h (by simp [QInv])

theorem qInv_run (cs : ClientState) (rs : List Round)
    (h : QInv cs.comparisonQueue) :
    QInv (run cs rs).comparisonQueue := by
  induction rs generalizing cs with
  | nil => exact h
  | cons r rs ih => exact ih _ (qInv_handle r.choice r.apiOk r.ratingA r.ratingB cs h)

theorem countComparisons_of_empty (cs : ClientState)
    (h : cs.comparisonQueue = []) (rs : List Round) :
    countComparisons cs rs = 0 := by
  cases rs <;> simp [countComparisons, h]

/-- Each resolved comparison at least halves the window, so a session
whose window has size at most `w` resolves at most `clog 2 (w + 1)`
comparisons, whatever outcomes and server responses arrive. -/
theorem countComparisons_le_clog (w : Nat) :
    ∀ (s : CompareState) (nm : Movie) (rs : List Round),
      StInv s → wsize s ≤ w →
      countComparisons ⟨nm, [s]⟩ rs ≤ Nat.clog 2 (w + 1) := by
  induction w using Nat.strong_induction_on with
  | _ w ih =>
    intro s nm rs hs hw
    cases rs with
    | nil => simp [countComparisons]
    | cons r rs' =>
      have hw1 : 1 ≤ wsize s := by
        obtain ⟨h0, hlh, -, -, -⟩ := hs
        unfold wsize
        omega
      have hclog1 : 1 ≤ Nat.clog 2 (w + 1) :=
        Nat.clog_pos (by norm_num) (by omega)
      have hcount : countComparisons ⟨nm, [s]⟩ (r :: rs') =
          1 + countComparisons
            (handleComparison r.choice r.apiOk r.ratingA r.ratingB ⟨nm, [s]⟩).1 rs' := by
        simp [countComparisons]
      rw [hcount]
      have hq := handleComparison_queue r.choice r.apiOk r.ratingA r.ratingB nm s []
      by_cases hle : nextLow r.choice s ≤ nextHigh r.choice s
      · rw [if_pos hle] at hq
        set cs' := (handleComparison r.choice r.apiOk r.ratingA r.ratingB ⟨nm, [s]⟩).1 with hcs'
        have hcseq : cs' = ⟨cs'.newMovie, [advancedState r.choice r.apiOk r.ratingB s]⟩ := by
          cases hc : cs' with
          | mk a b =>
            simp only [hc] at hq ⊢
            simp only [List.append_nil] at hq
            simpa using hq
        rw [hcseq]
        have hadv : StInv (advancedState r.choice r.apiOk r.ratingB s) :=
          stInv_advanced hs hle
        have hws : wsize (advancedState r.choice r.apiOk r.ratingB s) ≤ w / 2 :=
          le_trans (wsize_advanced hs hle) (Nat.div_le_div_right hw)
        have hrec := ih (w / 2) (by omega) (advancedState r.choice r.apiOk r.ratingB s)
          cs'.newMovie rs' hadv hws
        have hstep : Nat.clog 2 (w + 1) = Nat.clog 2 (w / 2 + 1) + 1 := by
          rw [Nat.clog_of_two_le (by norm_num) (by omega)]
          congr 2
          omega
        omega
      · rw [if_neg hle] at hq
        simp only [List.nil_append] at hq
        rw [countComparisons_of_empty _ hq]
        omega

/-! ## Claim theorems -/

/-- C1: On an in-progress session state with `low ≤ mid ≤ high`,
applying an outcome updates the bounds as the code does — `'a'` (new
item wins) sets `low = mid + 1`, `'b'` (opponent wins) sets
`high = mid - 1`, the other bound unchanged — and afterwards, if
`low ≤ high`, the state is re-enqueued with the new probe index
`mid = floor((low + high) / 2)` and the next opponent shown is
`movies[mid]`; otherwise the session is done and no further opponent is
shown. -/
theorem handleComparison_advances_binary_search
    (nm : Movie) (s : CompareState) (choice : Choice) (apiOk : Bool) (rA rB : Int)
    (hlm : s.low ≤ s.mid) (hmh : s.mid ≤ s.high) :
    nextLow Choice.a s = s.mid + 1 ∧ nextHigh Choice.a s = s.high ∧
    nextLow Choice.b s = s.low ∧ nextHigh Choice.b s = s.mid - 1 ∧
    (if nextLow choice s ≤ nextHigh choice s then
      (handleComparison choice apiOk rA rB ⟨nm, [s]⟩).1.comparisonQueue =
          [advancedState choice apiOk rB s] ∧
        (advancedState choice apiOk rB s).low = nextLow choice s ∧
        (advancedState choice apiOk rB s).high = nextHigh choice s ∧
        (advancedState choice apiOk rB s).mid =
          jsMid (nextLow choice s) (nextHigh choice s) ∧
        (handleComparison choice apiOk rA rB ⟨nm, [s]⟩).2 =
          some ((handleComparison choice apiOk rA rB ⟨nm, [s]⟩).1.newMovie,
            (advancedState choice apiOk rB s).movies.getD
              (advancedState choice apiOk rB s).mid.toNat undefinedMovie)
     else
      (handleComparison choice apiOk rA rB ⟨nm, [s]⟩).1.comparisonQueue = [] ∧
        (handleComparison choice apiOk rA rB ⟨nm, [s]⟩).2 = none) := by
  refine ⟨rfl, rfl, rfl, rfl, ?_⟩
  have hq := handleComparison_queue choice apiOk rA rB nm s []
  by_cases hle : nextLow choice s ≤ nextHigh choice s
  · rw [if_pos hle] at hq ⊢
    simp only [List.append_nil] at hq
    refine ⟨hq, rfl, rfl, rfl, ?_⟩
    rw [handleComparison_shown, hq]
    rfl
  · rw [if_neg hle] at hq ⊢
    simp only [List.nil_append] at hq
    refine ⟨hq, ?_⟩
    rw [handleComparison_shown, hq]
    rfl

/-- C1 witness: concrete instance on `sampleState` (`low = 0`, `mid = 1`,
`high = 2`) with outcome `'a'` and a successful rating update. -/
theorem handleComparison_advances_binary_search_witness :
    sampleState.low ≤ sampleState.mid ∧ sampleState.mid ≤ sampleState.high ∧
    (nextLow Choice.a sampleState = sampleState.mid + 1 ∧
      nextHigh Choice.a sampleState = sampleState.high ∧
      nextLow Choice.b sampleState = sampleState.low ∧
      nextHigh Choice.b sampleState = sampleState.mid - 1 ∧
      (if nextLow Choice.a sampleState ≤ nextHigh Choice.a sampleState then
        (handleComparison Choice.a true 1010 1390
            ⟨sampleNew, [sampleState]⟩).1.comparisonQueue =
            [advancedState Choice.a true 1390 sampleState] ∧
          (advancedState Choice.a true 1390 sampleState).low =
            nextLow Choice.a sampleState ∧
          (advancedState Choice.a true 1390 sampleState).high =
            nextHigh Choice.a sampleState ∧
          (advancedState Choice.a true 1390 sampleState).mid =
            jsMid (nextLow Choice.a sampleState) (nextHigh Choice.a sampleState) ∧
          (handleComparison Choice.a true 1010 1390 ⟨sampleNew, [sampleState]⟩).2 =
            some ((handleComparison Choice.a true 1010 1390
                ⟨sampleNew, [sampleState]⟩).1.newMovie,
              (advancedState Choice.a true 1390 sampleState).movies.getD
                (advancedState Choice.a true 1390 sampleState).mid.toNat undefinedMovie)
       else
        (handleComparison Choice.a true 1010 1390
            ⟨sampleNew, [sampleState]⟩).1.comparisonQueue = [] ∧
          (handleComparison Choice.a true 1010 1390 ⟨sampleNew, [sampleState]⟩).2 =
            none)) :=
  ⟨by decide, by decide,
    handleComparison_advances_binary_search sampleNew sampleState Choice.a true 1010 1390
      (by decide) (by decide)⟩

/-- C2: A tie outcome sets `low = high + 1` (the search-ending update),
so whatever the current window is, the state is never re-enqueued: the
queue empties and `showNextComparison` reports the session finished on
that same call. -/
theorem tie_terminates_session (nm : Movie) (s : CompareState)
    (apiOk : Bool) (rA rB : Int) :
    nextLow Choice.equal s = s.high + 1 ∧
    nextHigh Choice.equal s = s.high ∧
    (handleComparison Choice.equal apiOk rA rB ⟨nm, [s]⟩).1.comparisonQueue = [] ∧
    (handleComparison Choice.equal apiOk rA rB ⟨nm, [s]⟩).2 = none := by
  have hle : ¬ nextLow Choice.equal s ≤ nextHigh Choice.equal s := by
    simp only [nextLow, nextHigh]
    omega
  have hq := handleComparison_queue Choice.equal apiOk rA rB nm s []
  rw [if_neg hle] at hq
  simp only [List.nil_append] at hq
  refine ⟨rfl, rfl, hq, ?_⟩
  rw [handleComparison_shown, hq]
  rfl

/-- C3: Session initialization sorts the candidates by rating descending
(a stable sort: a permutation, pairwise descending, and for every rating
value the items carrying it keep their input order), sets `low = 0`,
`high = length - 1`, `mid = floor((low + high) / 2)`, and the comparison
shown — at the start and after every later round — is `newMovie` versus
`candidates[mid]`. -/
theorem startBinaryComparison_init_spec (movies0 : List Movie)
    (hne : movies0 ≠ []) :
    (startBinaryComparison movies0).movies = sortByEloDesc movies0 ∧
    List.Sorted eloGe (startBinaryComparison movies0).movies ∧
    List.Perm (startBinaryComparison movies0).movies movies0 ∧
    (∀ c : Int,
      (startBinaryComparison movies0).movies.filter (fun m => m.elo_rating == c) =
        movies0.filter (fun m => m.elo_rating == c)) ∧
    (startBinaryComparison movies0).low = 0 ∧
    (startBinaryComparison movies0).high = (movies0.length : Int) - 1 ∧
    (startBinaryComparison movies0).mid = jsMid 0 ((movies0.length : Int) - 1) ∧
    (∀ nm : Movie,
      showNextComparison nm [startBinaryComparison movies0] =
        some (nm, (startBinaryComparison movies0).movies.getD
          (startBinaryComparison movies0).mid.toNat undefinedMovie)) ∧
    (∀ (nm : Movie) (rs : List Round),
      ∀ s ∈ (run ⟨nm, [startBinaryComparison movies0]⟩ rs).comparisonQueue,
        showNextComparison (run ⟨nm, [startBinaryComparison movies0]⟩ rs).newMovie
            (run ⟨nm, [startBinaryComparison movies0]⟩ rs).comparisonQueue =
          some ((run ⟨nm, [startBinaryComparison movies0]⟩ rs).newMovie,
            s.movies.getD s.mid.toNat undefinedMovie)) := by
  have hlen : ((sortByEloDesc movies0).length : Int) = (movies0.length : Int) := by
    rw [sortByEloDesc_length]
  refine ⟨rfl, sortByEloDesc_sorted movies0, sortByEloDesc_perm movies0,
    fun c => sortByEloDesc_stable c movies0, rfl, ?_, ?_, fun nm => rfl, ?_⟩
  · show ((sortByEloDesc movies0).length : Int) - 1 = (movies0.length : Int) - 1
    rw [hlen]
  · show jsMid 0 (((sortByEloDesc movies0).length : Int) - 1) =
      jsMid 0 ((movies0.length : Int) - 1)
    rw [hlen]
  · intro nm rs s hmem
    have hq : QInv (run ⟨nm, [startBinaryComparison movies0]⟩ rs).comparisonQueue :=
      qInv_run _ rs (stInv_start movies0 hne)
    rcases hql : (run ⟨nm, [startBinaryComparison movies0]⟩ rs).comparisonQueue with
      _ | ⟨s0, rest⟩
    · rw [hql] at hmem
      simp at hmem
    · rcases rest with _ | ⟨s1, rest'⟩
      · rw [hql] at hq hmem
        have hs0 : StInv s0 := hq
        have hs : s = s0 := by simpa using hmem
        subst hs
        simp only [showNextComparison]
        rw [hs0.2.2.2.2]
      · rw [hql] at hq
        exact absurd hq (by simp [QInv])

/-- C3 witness: concrete instance on the three-movie fixture. -/
theorem startBinaryComparison_init_spec_witness :
    sampleMovies ≠ [] ∧
    (startBinaryComparison sampleMovies).low = 0 ∧
    (startBinaryComparison sampleMovies).high = (sampleMovies.length : Int) - 1 ∧
    (startBinaryComparison sampleMovies).mid =
      jsMid 0 ((sampleMovies.length : Int) - 1) ∧
    showNextComparison sampleNew [startBinaryComparison sampleMovies] =
      some (sampleNew, (startBinaryComparison sampleMovies).movies.getD
        (startBinaryComparison sampleMovies).mid.toNat undefinedMovie) := by
  have h := startBinaryComparison_init_spec sampleMovies (by decide)
  exact ⟨by decide, h.2.2.2.2.1, h.2.2.2.2.2.1, h.2.2.2.2.2.2.1,
    h.2.2.2.2.2.2.2.1 sampleNew⟩

/-- C4: Adding a movie whose category holds no other item (every movie
the server returns is filtered out as the new item itself) starts no
session: the queue is empty, nothing is shown, zero comparisons are
counted over any rounds, and the client state — in particular the new
movie's server-assigned baseline rating — never changes. -/
theorem addMovie_empty_category_no_comparisons (nm : Movie)
    (categoryResponse : List Movie)
    (hempty : getMoviesInCategory nm.id categoryResponse = []) :
    addMovieQueue (getMoviesInCategory nm.id categoryResponse) = [] ∧
    showNextComparison nm (addMovieQueue (getMoviesInCategory nm.id categoryResponse)) =
      none ∧
    (∀ rs : List Round,
      countComparisons
        ⟨nm, addMovieQueue (getMoviesInCategory nm.id categoryResponse)⟩ rs = 0) ∧
    (∀ rs : List Round,
      run ⟨nm, addMovieQueue (getMoviesInCategory nm.id categoryResponse)⟩ rs =
        ⟨nm, []⟩) := by
  rw [hempty]
  exact ⟨rfl, rfl, fun rs => countComparisons_of_empty _ rfl rs,
    fun rs => run_empty_queue nm rs⟩

/-- C4 witness: the category listing returns only the new movie itself. -/
theorem addMovie_empty_category_no_comparisons_witness :
    getMoviesInCategory sampleNew.id [sampleNew] = [] ∧
    addMovieQueue (getMoviesInCategory sampleNew.id [sampleNew]) = [] ∧
    showNextComparison sampleNew
      (addMovieQueue (getMoviesInCategory sampleNew.id [sampleNew])) = none ∧
    countComparisons
      ⟨sampleNew, addMovieQueue (getMoviesInCategory sampleNew.id [sampleNew])⟩
      [⟨Choice.a, true, 1010, 1390⟩] = 0 ∧
    run ⟨sampleNew, addMovieQueue (getMoviesInCategory sampleNew.id [sampleNew])⟩
      [⟨Choice.a, true, 1010, 1390⟩] = ⟨sampleNew, []⟩ := by
  have h := addMovie_empty_category_no_comparisons sampleNew [sampleNew] (by decide)
  exact ⟨by decide, h.1, h.2.1, h.2.2.1 _, h.2.2.2 _⟩

/-- C5: For `n` existing candidates and any sequence of outcomes and
server responses, the session resolves at most `ceil(log2(n + 1))`
(= `Nat.clog 2 (n + 1)`) comparisons; moreover every outcome applied to
an in-progress state strictly shrinks the window `high - low` of any
state it re-enqueues, so the session always terminates. -/
theorem insertion_comparison_bound (nm : Movie) (movies0 : List Movie) :
    (∀ rs : List Round,
      countComparisons ⟨nm, addMovieQueue movies0⟩ rs ≤
        Nat.clog 2 (movies0.length + 1)) ∧
    (∀ (choice : Choice) (apiOk : Bool) (rA rB : Int) (s : CompareState),
      s.low ≤ s.mid → s.mid ≤ s.high →
      ∀ s' ∈ (handleComparison choice apiOk rA rB ⟨nm, [s]⟩).1.comparisonQueue,
        s'.high - s'.low < s.high - s.low) := by
  constructor
  · intro rs
    by_cases hne : movies0 = []
    · subst hne
      rw [show addMovieQueue [] = [] from rfl,
        countComparisons_of_empty ⟨nm, []⟩ rfl rs]
      exact Nat.zero_le _
    · have hpos : 0 < movies0.length := List.length_pos.mpr hne
      have hqueue : addMovieQueue movies0 = [startBinaryComparison movies0] := by
        unfold addMovieQueue
        rw [if_pos hpos]
      have hws : wsize (startBinaryComparison movies0) = movies0.length := by
        have hh : (startBinaryComparison movies0).high =
            ((sortByEloDesc movies0).length : Int) - 1 := rfl
        have hl : (startBinaryComparison movies0).low = 0 := rfl
        unfold wsize
        rw [hh, hl, sortByEloDesc_length]
        omega
      rw [hqueue]
      exact countComparisons_le_clog movies0.length (startBinaryComparison movies0)
        nm rs (stInv_start movies0 hne) (le_of_eq hws)
  · intro choice apiOk rA rB s hlm hmh s' hmem
    have hq := handleComparison_queue choice apiOk rA rB nm s []
    by_cases hle : nextLow choice s ≤ nextHigh choice s
    · rw [if_pos hle] at hq
      simp only [List.append_nil] at hq
      rw [hq] at hmem
      have hs' : s' = advancedState choice apiOk rB s := by simpa using hmem
      subst hs'
      show (advancedState choice apiOk rB s).high -
          (advancedState choice apiOk rB s).low < s.high - s.low
      have hhigh : (advancedState choice apiOk rB s).high = nextHigh choice s := rfl
      have hlow : (advancedState choice apiOk rB s).low = nextLow choice s := rfl
      rw [hhigh, hlow]
      cases choice <;> simp only [nextLow, nextHigh] at hle ⊢ <;> omega
    · rw [if_neg hle] at hq
      simp only [List.nil_append] at hq
      rw [hq] at hmem
      simp at hmem

/-- C5 witness: on the three-candidate fixture the bound is
`clog 2 4 = 2`, and one applied outcome shrinks the window. -/
theorem insertion_comparison_bound_witness :
    countComparisons ⟨sampleNew, addMovieQueue sampleMovies⟩
        [⟨Choice.a, true, 1010, 1390⟩, ⟨Choice.a, true, 1020, 1290⟩,
          ⟨Choice.a, true, 1030, 1190⟩] ≤
      Nat.clog 2 (sampleMovies.length + 1) ∧
    sampleState.low ≤ sampleState.mid ∧ sampleState.mid ≤ sampleState.high ∧
    (advancedState Choice.a true 1390 sampleState).high -
        (advancedState Choice.a true 1390 sampleState).low <
      sampleState.high - sampleState.low :=
  ⟨(insertion_comparison_bound sampleNew sampleMovies).1 _, by decide, by decide,
    (insertion_comparison_bound sampleNew sampleMovies).2 Choice.a true 1010 1390
      sampleState (by decide) (by decide)
      (advancedState Choice.a true 1390 sampleState) (by decide)⟩

/-- C6: The invariant `low ≤ high + 1` holds right after initialization
and after every outcome application to an in-progress state, and the
session reports done (nothing further shown) exactly when the updated
bounds satisfy `low > high`. -/
theorem session_invariant_low_le_high_succ (movies0 : List Movie) :
    (startBinaryComparison movies0).low ≤ (startBinaryComparison movies0).high + 1 ∧
    (∀ (choice : Choice) (s : CompareState),
      s.low ≤ s.mid → s.mid ≤ s.high →
      nextLow choice s ≤ nextHigh choice s + 1) ∧
    (∀ (choice : Choice) (apiOk : Bool) (rA rB : Int) (nm : Movie)
        (s : CompareState),
      (handleComparison choice apiOk rA rB ⟨nm, [s]⟩).2 = none ↔
        nextHigh choice s < nextLow choice s) := by
  refine ⟨?_, ?_, ?_⟩
  · show (0 : Int) ≤ ((sortByEloDesc movies0).length : Int) - 1 + 1
    have : (0 : Int) ≤ ((sortByEloDesc movies0).length : Int) := Int.ofNat_nonneg _
    omega
  · intro choice s hlm hmh
    cases choice <;> simp only [nextLow, nextHigh] <;> omega
  · intro choice apiOk rA rB nm s
    have hq := handleComparison_queue choice apiOk rA rB nm s []
    rw [handleComparison_shown, hq]
    by_cases hle : nextLow choice s ≤ nextHigh choice s
    · rw [if_pos hle]
      simp only [List.append_nil, showNextComparison]
      constructor
      · intro h
        exact absurd h (by simp)
      · intro h
        omega
    · rw [if_neg hle]
      simp only [List.nil_append, showNextComparison]
      constructor
      · intro h
        omega
      · intro h
        trivial

/-- C6 witness: concrete instance on the three-movie fixture. -/
theorem session_invariant_low_le_high_succ_witness :
    (startBinaryComparison sampleMovies).low ≤
        (startBinaryComparison sampleMovies).high + 1 ∧
    sampleState.low ≤ sampleState.mid ∧ sampleState.mid ≤ sampleState.high ∧
    nextLow Choice.a sampleState ≤ nextHigh Choice.a sampleState + 1 ∧
    ((handleComparison Choice.equal true 1005 1395
        ⟨sampleNew, [sampleState]⟩).2 = none ↔
      nextHigh Choice.equal sampleState < nextLow Choice.equal sampleState) :=
  ⟨(session_invariant_low_le_high_succ sampleMovies).1, by decide, by decide,
    (session_invariant_low_le_high_succ sampleMovies).2.1 Choice.a sampleState
      (by decide) (by decide),
    (session_invariant_low_le_high_succ sampleMovies).2.2 Choice.equal true 1005 1395
      sampleNew sampleState⟩

theorem getD_eq_get {α : Type} (l : List α) (i : Nat) (d : α)
    (hi : i < l.length) :
    l.getD i d = l.get ⟨i, hi⟩ := by
  simp [List.getD_eq_getElem?_getD, List.getElem?_eq_getElem hi, List.get_eq_getElem]

theorem map_set_eq_self {α β : Type} (f : α → β) (l : List α) (i : Nat) (a : α)
    (h : ∀ hi : i < l.length, f a = f (l.get ⟨i, hi⟩)) :
    (l.set i a).map f = l.map f := by
  induction l generalizing i with
  | nil => simp
  | cons x xs ih =>
    cases i with
    | zero =>
      have hx := h (by simp)
      simp only [List.set_cons_zero, List.map_cons]
      rw [hx]
      rfl
    | succ n =>
      simp only [List.set_cons_succ, List.map_cons]
      rw [ih n (fun hi => h (by simpa using Nat.succ_lt_succ hi))]

/-- The rating refresh of a successful comparison touches exactly the
slot `mid` of the candidate list, and there only the rating field. -/
theorem refreshedMovies_frame (apiOk : Bool) (rB : Int) (s : CompareState)
    (halias : s.compareTo = s.movies.getD s.mid.toNat undefinedMovie) :
    (refreshedMovies apiOk rB s).length = s.movies.length ∧
    (refreshedMovies apiOk rB s).map Movie.id = s.movies.map Movie.id ∧
    (refreshedMovies apiOk rB s).map Movie.movie_title =
      s.movies.map Movie.movie_title ∧
    (∀ j : Nat, j ≠ s.mid.toNat →
      (refreshedMovies apiOk rB s).getD j undefinedMovie =
        s.movies.getD j undefinedMovie) ∧
    ((refreshedMovies apiOk rB s).getD s.mid.toNat undefinedMovie).id =
      (s.movies.getD s.mid.toNat undefinedMovie).id ∧
    ((refreshedMovies apiOk rB s).getD s.mid.toNat undefinedMovie).movie_title =
      (s.movies.getD s.mid.toNat undefinedMovie).movie_title := by
  cases apiOk with
  | false => exact ⟨rfl, rfl, rfl, fun j hj => rfl, rfl, rfl⟩
  | true =>
    simp only [refreshedMovies, if_pos]
    by_cases hi : s.mid.toNat < s.movies.length
    · have hget : s.movies.getD s.mid.toNat undefinedMovie =
          s.movies.get ⟨s.mid.toNat, hi⟩ := getD_eq_get _ _ _ hi
      have hsetD : (s.movies.set s.mid.toNat
            { s.compareTo with elo_rating := rB }).getD s.mid.toNat undefinedMovie =
          { s.compareTo with elo_rating := rB } := by
        simp [List.getD_eq_getElem?_getD, List.getElem?_set_self hi]
      refine ⟨List.length_set s.movies _ _, ?_, ?_, ?_, ?_, ?_⟩
      · exact map_set_eq_self _ _ _ _
          (fun hi2 => by rw [halias, hget])
      · exact map_set_eq_self _ _ _ _
          (fun hi2 => by rw [halias, hget])
      · intro j hj
        simp [List.getD_eq_getElem?_getD, List.getElem?_set_ne (Ne.symm hj)]
      · rw [hsetD, halias]
      · rw [hsetD, halias]
    · have hset : s.movies.set s.mid.toNat { s.compareTo with elo_rating := rB } =
          s.movies := List.set_eq_of_length_le (by omega)
      rw [hset]
      exact ⟨rfl, rfl, rfl, fun j hj => rfl, rfl, rfl⟩

/-- C7 is false of the code at this input: the comparison application
fails (`apiOk = false`, as when the opponent was deleted mid-session and
`/api/compare` errors), yet the session is not discarded —
`handleComparison` still advances the bounds and issues a further
comparison. -/
theorem failed_comparison_still_continues_counterexample :
    (handleComparison Choice.a false 0 0 ⟨sampleNew, [sampleState]⟩).2 ≠ none ∧
    (handleComparison Choice.a false 0 0
        ⟨sampleNew, [sampleState]⟩).1.comparisonQueue ≠ [] := by
  decide

/-- C7 amended: when the comparison-application step fails, the client
only skips the rating refresh (ratings and candidate list unchanged);
it does not fail or discard the session: the chosen outcome's bounds
update is applied exactly as on success and the search continues,
finishing only when the updated bounds close the window. -/
theorem failed_comparison_skips_rating_update_only (nm : Movie)
    (s : CompareState) (choice : Choice) (rA rB : Int) :
    (handleComparison choice false rA rB ⟨nm, [s]⟩).1.newMovie = nm ∧
    ((handleComparison choice false rA rB ⟨nm, [s]⟩).1.comparisonQueue =
      if nextLow choice s ≤ nextHigh choice s then [advancedState choice false rB s]
      else []) ∧
    (advancedState choice false rB s).movies = s.movies ∧
    (advancedState choice false rB s).low = nextLow choice s ∧
    (advancedState choice false rB s).high = nextHigh choice s ∧
    ((handleComparison choice false rA rB ⟨nm, [s]⟩).2 = none ↔
      nextHigh choice s < nextLow choice s) := by
  have hq := handleComparison_queue choice false rA rB nm s []
  refine ⟨by rw [handleComparison_newMovie]; rfl, ?_, rfl, rfl, rfl, ?_⟩
  · rw [hq]
    split <;> simp
  · rw [handleComparison_shown, hq]
    by_cases hle : nextLow choice s ≤ nextHigh choice s
    · rw [if_pos hle]
      simp only [List.append_nil, showNextComparison]
      constructor
      · intro h
        exact absurd h (by simp)
      · intro h
        omega
    · rw [if_neg hle]
      simp only [List.nil_append, showNextComparison]
      constructor
      · intro h
        omega
      · intro h
        trivial

/-- C8 is false of the code at this input: after one `'a'` outcome the
session is still in progress (`low = 2`, `high = 2`), and submitting the
very same outcome again is neither rejected nor detected — it is applied
to the advanced state and moves the bounds a second time, ending the
session. -/
theorem duplicate_outcome_applied_twice_counterexample :
    (run ⟨sampleNew, [sampleState]⟩ [⟨Choice.a, true, 1010, 1390⟩]).comparisonQueue.map
        (fun s => (s.low, s.high)) = [(2, 2)] ∧
    (run ⟨sampleNew, [sampleState]⟩
        [⟨Choice.a, true, 1010, 1390⟩,
          ⟨Choice.a, true, 1020, 1290⟩]).comparisonQueue = [] := by
  decide

/-- C8 amended: `handleComparison` performs no session/opponent
matching at all — every submitted outcome is applied unconditionally to
the head of the current queue, its bounds update taking effect (and the
head being re-enqueued exactly when the window stays open), so a
duplicated or out-of-order submission advances the search again rather
than being rejected. -/
theorem outcome_applied_unconditionally (choice : Choice) (apiOk : Bool)
    (rA rB : Int) (nm : Movie) (s : CompareState) (rest : List CompareState) :
    (handleComparison choice apiOk rA rB ⟨nm, s :: rest⟩).1.comparisonQueue =
      (if nextLow choice s ≤ nextHigh choice s then [advancedState choice apiOk rB s]
       else []) ++ rest ∧
    (advancedState choice apiOk rB s).low = nextLow choice s ∧
    (advancedState choice apiOk rB s).high = nextHigh choice s :=
  ⟨handleComparison_queue choice apiOk rA rB nm s rest, rfl, rfl⟩

/-- C9: Under the session aliasing invariant
(`compareTo = movies[mid]`), one outcome application changes only the
two involved ratings and the bounds: the new movie keeps its identity
(only its rating field may change), and the candidate list of any
re-enqueued state has the same length, the same ids in the same order,
the same titles in the same order, identical entries at every index
other than `mid`, and at `mid` the same id and title — no re-sort, no
membership change, only the opponent's rating refreshed. -/
theorem handleComparison_frame (nm : Movie) (s : CompareState) (choice : Choice)
    (apiOk : Bool) (rA rB : Int)
    (halias : s.compareTo = s.movies.getD s.mid.toNat undefinedMovie) :
    (handleComparison choice apiOk rA rB ⟨nm, [s]⟩).1.newMovie.id = nm.id ∧
    (handleComparison choice apiOk rA rB ⟨nm, [s]⟩).1.newMovie.movie_title =
      nm.movie_title ∧
    (∀ s' ∈ (handleComparison choice apiOk rA rB ⟨nm, [s]⟩).1.comparisonQueue,
      s'.movies.length = s.movies.length ∧
      s'.movies.map Movie.id = s.movies.map Movie.id ∧
      s'.movies.map Movie.movie_title = s.movies.map Movie.movie_title ∧
      (∀ j : Nat, j ≠ s.mid.toNat →
        s'.movies.getD j undefinedMovie = s.movies.getD j undefinedMovie) ∧
      (s'.movies.getD s.mid.toNat undefinedMovie).id =
        (s.movies.getD s.mid.toNat undefinedMovie).id ∧
      (s'.movies.getD s.mid.toNat undefinedMovie).movie_title =
        (s.movies.getD s.mid.toNat undefinedMovie).movie_title) := by
  refine ⟨?_, ?_, ?_⟩
  · rw [handleComparison_newMovie]
    cases apiOk <;> rfl
  · rw [handleComparison_newMovie]
    cases apiOk <;> rfl
  · intro s' hmem
    have hq := handleComparison_queue choice apiOk rA rB nm s []
    by_cases hle : nextLow choice s ≤ nextHigh choice s
    · rw [if_pos hle] at hq
      simp only [List.append_nil] at hq
      rw [hq] at hmem
      have hs' : s' = advancedState choice apiOk rB s := by simpa using hmem
      subst hs'
      exact refreshedMovies_frame apiOk rB s halias
    · rw [if_neg hle] at hq
      simp only [List.nil_append] at hq
      rw [hq] at hmem
      simp at hmem

/-- C9 witness: concrete instance on the fixture session. -/
theorem handleComparison_frame_witness :
    sampleState.compareTo =
        sampleState.movies.getD sampleState.mid.toNat undefinedMovie ∧
    (handleComparison Choice.a true 1010 1390
        ⟨sampleNew, [sampleState]⟩).1.newMovie.id = sampleNew.id ∧
    ∀ s' ∈ (handleComparison Choice.a true 1010 1390
        ⟨sampleNew, [sampleState]⟩).1.comparisonQueue,
      s'.movies.map Movie.id = sampleState.movies.map Movie.id := by
  have h := handleComparison_frame sampleNew sampleState Choice.a true 1010 1390
    (by decide)
  exact ⟨by decide, h.1, fun s' hmem => (h.2.2 s' hmem).2.1⟩

/-- C10: In every state reachable from initialization on a non-empty
candidate list in which a comparison is pending, the probe index
satisfies `0 ≤ low ≤ mid ≤ high < length movies`, so the opponent
lookup `movies[mid]` is in bounds and yields an existing item — the
displayed opponent is never the out-of-range `undefined`. -/
theorem reachable_probe_in_bounds (nm : Movie) (movies0 : List Movie)
    (hne : movies0 ≠ []) (rs : List Round) :
    ∀ s ∈ (run ⟨nm, [startBinaryComparison movies0]⟩ rs).comparisonQueue,
      0 ≤ s.low ∧ s.low ≤ s.mid ∧ s.mid ≤ s.high ∧
      s.high < (s.movies.length : Int) ∧
      ∃ hi : s.mid.toNat < s.movies.length,
        s.compareTo = s.movies.get ⟨s.mid.toNat, hi⟩ := by
  intro s hmem
  have hq : QInv (run ⟨nm, [startBinaryComparison movies0]⟩ rs).comparisonQueue :=
    qInv_run _ rs (stInv_start movies0 hne)
  rcases hql : (run ⟨nm, [startBinaryComparison movies0]⟩ rs).comparisonQueue with
    _ | ⟨s0, rest⟩
  · rw [hql] at hmem
    simp at hmem
  · rcases rest with _ | ⟨s1, rest'⟩
    · rw [hql] at hq hmem
      have hs0 : StInv s0 := hq
      have hs : s = s0 := by simpa using hmem
      subst hs
      have hlm := hs0.low_le_mid
      have hmh := hs0.mid_le_high
      obtain ⟨h0, hlh, hm, hhi, hct⟩ := hs0
      have hi : s.mid.toNat < s.movies.length := by omega
      exact ⟨h0, hlm, hmh, hhi, hi, by rw [hct, getD_eq_get _ _ _ hi]⟩
    · rw [hql] at hq
      exact absurd hq (by simp [QInv])

/-- C10 witness: the initial fixture state itself, reachable with zero
rounds. -/
theorem reachable_probe_in_bounds_witness :
    sampleMovies ≠ [] ∧
    startBinaryComparison sampleMovies ∈
      (run ⟨sampleNew, [startBinaryComparison sampleMovies]⟩ []).comparisonQueue ∧
    (0 ≤ (startBinaryComparison sampleMovies).low ∧
      (startBinaryComparison sampleMovies).low ≤
        (startBinaryComparison sampleMovies).mid ∧
      (startBinaryComparison sampleMovies).mid ≤
        (startBinaryComparison sampleMovies).high ∧
      (startBinaryComparison sampleMovies).high <
        ((startBinaryComparison sampleMovies).movies.length : Int) ∧
      ∃ hi : (startBinaryComparison sampleMovies).mid.toNat <
          (startBinaryComparison sampleMovies).movies.length,
        (startBinaryComparison sampleMovies).compareTo =
          (startBinaryComparison sampleMovies).movies.get
            ⟨(startBinaryComparison sampleMovies).mid.toNat, hi⟩) :=
  ⟨by decide, by decide,
    reachable_probe_in_bounds sampleNew sampleMovies (by decide) []
      (startBinaryComparison sampleMovies) (by decide)⟩

end Bopzone
